import Mathlib

/-!
Package `strong`: a `math/rand.Source64` backed by `crypto/rand`

Shallow embedding of `strong.go`.

* Go's `byte` is `Fin 256`; `uint64` values are natural numbers, with the
  reduction modulo `2 ^ 64` written out where the Go operation wraps;
  `int64` values are integers obtained through `int64`, the two's-complement
  conversion.
* `crypto/rand.Read` is the one external call of the package.  It is taken
  as a parameter: an `Entropy σ` gives, for a state `σ` of the outside
  world, the outcome of one `Read` and the state after it.
* A Go call either returns or panics: `Outcome`.
-/

namespace Strong

/-! ## Go values -/

/-- Go `byte`. -/
abbrev Byte := Fin 256

/-- Go `[8]byte`. -/
abbrev Buf8 := Fin 8 → Byte

/-- Go `error` values, as far as the package builds and inspects them: an
error made by some other package, of which only the message is seen, or the wrapper
`fmt.Errorf` allocates for a format with one `%w` verb. -/
inductive GoError where
  | errorString (s : String)
  | wrapError (msg : String) (err : GoError)
  deriving DecidableEq, Repr

/-- Method `Error()` of a Go error. -/
def GoError.Error : GoError → String
  | .errorString s => s
  | .wrapError msg _ => msg

/-- Function `errors.Unwrap`. -/
def GoError.Unwrap : GoError → Option GoError
  | .errorString _ => none
  | .wrapError _ err => some err

/-- Call `fmt.Errorf(pfx + "%w", err)`, for a `pfx` without verbs: the
message is `pfx` followed by `err.Error()`, and the result wraps `err`. -/
def Errorf (pfx : String) (err : GoError) : GoError :=
  .wrapError (pfx ++ err.Error) err

/-- The format of the panic value of `Uint64`, up to its `%w` verb. -/
def panicPrefix : String := "secure: failed to draw entropy from rand.Reader: "

/-- How a Go call ends: it returns a value, or it panics with a value. -/
inductive Outcome (α : Type) where
  | ret (v : α)
  | panic (e : GoError)
  deriving DecidableEq, Repr

/-- Conversion `uint64(x)`. -/
def uint64 (x : Nat) : Nat := x % 2 ^ 64

/-- Conversion `int64(u)` of a `uint64`: same bit pattern, two's complement. -/
def int64 (u : Nat) : Int :=
  if u % 2 ^ 64 < 2 ^ 63 then ((u % 2 ^ 64 : Nat) : Int)
  else ((u % 2 ^ 64 : Nat) : Int) - 2 ^ 64

/-- Function `binary.LittleEndian.Uint64` of `encoding/binary`, on a slice of
length 8:
`uint64(b[0]) | uint64(b[1])<<8 | ... | uint64(b[7])<<56`. -/
def LittleEndian.Uint64 (b : Buf8) : Nat :=
  uint64 (b 0).val ||| uint64 (uint64 (b 1).val <<< 8) |||
    uint64 (uint64 (b 2).val <<< 16) ||| uint64 (uint64 (b 3).val <<< 24) |||
    uint64 (uint64 (b 4).val <<< 32) ||| uint64 (uint64 (b 5).val <<< 40) |||
    uint64 (uint64 (b 6).val <<< 48) ||| uint64 (uint64 (b 7).val <<< 56)

/-! ## The entropy source -/

/-- What one call `n, err := crypto/rand.Read(b)` leaves behind: the bytes
it stored at the start of `b` (so `n` is their number) and `err`. -/
structure ReadResult where
  written : List Byte
  err : Option GoError
  deriving DecidableEq, Repr

/-- Byte count `n` returned by the read. -/
def ReadResult.n (r : ReadResult) : Nat := r.written.length

/-- The outside world as the package sees it: `Read len w` is the outcome of
`crypto/rand.Read` on a buffer of length `len` in state `w`, with the state
after the call. -/
structure Entropy (σ : Type) where
  Read : Nat → σ → ReadResult × σ

/-- Buffer `bs` after a read stored `written` at its start. -/
def store (bs : Buf8) (written : List Byte) : Buf8 :=
  fun i => written.getD i.val (bs i)

/-! ## The package -/

/-- Method `source64.Seed`: the body is empty. -/
def Seed {σ : Type} (_seed : Int) (w : σ) : Outcome Unit × σ :=
  (.ret (), w)

/-- Method `source64.Uint64`. -/
def Uint64 {σ : Type} (E : Entropy σ) (w : σ) : Outcome Nat × σ :=
  let bs : Buf8 := fun _ => 0
  let (r, w') := E.Read 8 w
  let bs := store bs r.written
  match r.err with
  | some err => (.panic (Errorf panicPrefix err), w')
  | none => (.ret (LittleEndian.Uint64 bs), w')

/-- Method `source64.Int63`: `int64(s.Uint64() & (1<<63 - 1))`. -/
def Int63 {σ : Type} (E : Entropy σ) (w : σ) : Outcome Int × σ :=
  match Uint64 E w with
  | (.panic e, w') => (.panic e, w')
  | (.ret u, w') => (.ret (int64 (u &&& (1 <<< 63 - 1))), w')

/-! ## Sequences of calls on one source -/

/-- One method call on a source. -/
inductive Call where
  | seed (x : Int)
  | uint64
  | int63
  deriving DecidableEq, Repr

/-- What a method call returns. -/
inductive Value where
  | unit
  | u64 (v : Nat)
  | i64 (v : Int)
  deriving DecidableEq, Repr

/-- Whether a call is a draw (`Uint64` or `Int63`) rather than `Seed`. -/
def Call.isDraw : Call → Bool
  | .seed _ => false
  | _ => true

/-- Whether an outcome is anything but the plain return of `Seed`. -/
def isDrawOutcome : Outcome Value → Bool
  | .ret .unit => false
  | _ => true

/-- Execute one call in state `w`. -/
def call {σ : Type} (E : Entropy σ) : Call → σ → Outcome Value × σ
  | .seed x, w =>
    match Seed x w with
    | (.ret _, w') => (.ret .unit, w')
    | (.panic e, w') => (.panic e, w')
  | .uint64, w =>
    match Uint64 E w with
    | (.ret v, w') => (.ret (.u64 v), w')
    | (.panic e, w') => (.panic e, w')
  | .int63, w =>
    match Int63 E w with
    | (.ret v, w') => (.ret (.i64 v), w')
    | (.panic e, w') => (.panic e, w')

/-- Execute calls one after the other on the same source, in one goroutine:
the outcomes in order, up to and including the first panic, which ends the
sequence. -/
def run {σ : Type} (E : Entropy σ) : List Call → σ → List (Outcome Value) × σ
  | [], w => ([], w)
  | c :: cs, w =>
    match call E c w with
    | (.panic e, w') => ([.panic e], w')
    | (.ret v, w') => (.ret v :: (run E cs w').1, (run E cs w').2)

/-! ## Entropy sources used to exercise the package -/

/-- An entropy source whose every read has the outcome `r`; the state counts
the reads. -/
def mockEntropy (r : ReadResult) : Entropy Nat :=
  ⟨fun _ w => (r, w + 1)⟩

/-- State of a byte stream: how many bytes were handed out, in how many
reads. -/
structure StreamState where
  pos : Nat
  reads : Nat
  deriving DecidableEq, Repr

/-- An endless byte stream `s` as entropy source: a read of `len` bytes hands
out the next `len` bytes of the stream and never fails. -/
def streamEntropy (s : Nat → Byte) : Entropy StreamState :=
  ⟨fun len w =>
    (⟨List.ofFn (fun i : Fin len => s (w.pos + i.val)), none⟩,
      ⟨w.pos + len, w.reads + 1⟩)⟩

/-- The stream whose byte at index `n` is `n mod 256`. -/
def countStream : Nat → Byte :=
  fun n => ⟨n % 256, Nat.mod_lt _ (by decide)⟩

/-- Bytes `8 * k, ..., 8 * k + 7` of a stream. -/
def window (s : Nat → Byte) (k : Nat) : Buf8 :=
  fun i => s (8 * k + i.val)

/-- What a call returns when its read fills the buffer with `b`. -/
def resultOn : Call → Buf8 → Outcome Value
  | .seed _, _ => .ret .unit
  | .uint64, b => .ret (.u64 (LittleEndian.Uint64 b))
  | .int63, b => .ret (.i64 (int64 (LittleEndian.Uint64 b &&& (1 <<< 63 - 1))))

/-- Number of draws among some calls. -/
def drawCount (cs : List Call) : Nat :=
  (cs.filter Call.isDraw).length

/-! ## Reference values -/

/-- Little-endian value of a buffer, as the sum
`b0 + b1 * 2^8 + ... + b7 * 2^56`. -/
def leValue (b : Buf8) : Nat :=
  (b 0).val + (b 1).val * 2 ^ 8 + (b 2).val * 2 ^ 16 + (b 3).val * 2 ^ 24 +
    (b 4).val * 2 ^ 32 + (b 5).val * 2 ^ 40 + (b 6).val * 2 ^ 48 + (b 7).val * 2 ^ 56

/-- Little-endian bytes of a number: byte `i` is `v / 2^(8 i) mod 256`. -/
def leBytes (v : Nat) : Buf8 :=
  fun i => ⟨v / 2 ^ (8 * i.val) % 256, Nat.mod_lt _ (by decide)⟩

/-- The buffer holding the bytes of a list of length 8 (zero elsewhere). -/
def bufOf (l : List Byte) : Buf8 :=
  store (fun _ => 0) l


/-! ## Arithmetic of the decoding -/

theorem or_shl (a b k : Nat) (h : a < 2 ^ k) : a ||| (b * 2 ^ k) = a + b * 2 ^ k := by
  rw [Nat.lor_comm, Nat.mul_comm, ← Nat.mul_add_lt_is_or h, Nat.add_comm]

theorem leValue_lt (b : Buf8) : leValue b < 2 ^ 64 := by
  unfold leValue
  have h0 := (b 0).isLt; have h1 := (b 1).isLt; have h2 := (b 2).isLt
  have h3 := (b 3).isLt; have h4 := (b 4).isLt; have h5 := (b 5).isLt
  have h6 := (b 6).isLt; have h7 := (b 7).isLt
  omega

theorem decode_eq_leValue (b : Buf8) : LittleEndian.Uint64 b = leValue b := by
  unfold LittleEndian.Uint64 leValue uint64
  have h0 := (b 0).isLt; have h1 := (b 1).isLt; have h2 := (b 2).isLt
  have h3 := (b 3).isLt; have h4 := (b 4).isLt; have h5 := (b 5).isLt
  have h6 := (b 6).isLt; have h7 := (b 7).isLt
  simp only [Nat.shiftLeft_eq]
  rw [Nat.mod_eq_of_lt (by omega : (b 0).val < 2 ^ 64),
    Nat.mod_eq_of_lt (by omega : (b 1).val < 2 ^ 64),
    Nat.mod_eq_of_lt (by omega : (b 2).val < 2 ^ 64),
    Nat.mod_eq_of_lt (by omega : (b 3).val < 2 ^ 64),
    Nat.mod_eq_of_lt (by omega : (b 4).val < 2 ^ 64),
    Nat.mod_eq_of_lt (by omega : (b 5).val < 2 ^ 64),
    Nat.mod_eq_of_lt (by omega : (b 6).val < 2 ^ 64),
    Nat.mod_eq_of_lt (by omega : (b 7).val < 2 ^ 64),
    Nat.mod_eq_of_lt (by omega : (b 1).val * 2 ^ 8 < 2 ^ 64),
    Nat.mod_eq_of_lt (by omega : (b 2).val * 2 ^ 16 < 2 ^ 64),
    Nat.mod_eq_of_lt (by omega : (b 3).val * 2 ^ 24 < 2 ^ 64),
    Nat.mod_eq_of_lt (by omega : (b 4).val * 2 ^ 32 < 2 ^ 64),
    Nat.mod_eq_of_lt (by omega : (b 5).val * 2 ^ 40 < 2 ^ 64),
    Nat.mod_eq_of_lt (by omega : (b 6).val * 2 ^ 48 < 2 ^ 64),
    Nat.mod_eq_of_lt (by omega : (b 7).val * 2 ^ 56 < 2 ^ 64)]
  rw [or_shl _ _ 8 (by omega), or_shl _ _ 16 (by omega), or_shl _ _ 24 (by omega),
    or_shl _ _ 32 (by omega), or_shl _ _ 40 (by omega), or_shl _ _ 48 (by omega),
    or_shl _ _ 56 (by omega)]

theorem decode_lt (b : Buf8) : LittleEndian.Uint64 b < 2 ^ 64 := by
  rw [decode_eq_leValue]; exact leValue_lt b

theorem mask63 (u : Nat) : u &&& (1 <<< 63 - 1) = u % 2 ^ 63 := by
  have h : (1 <<< 63 - 1 : Nat) = 2 ^ 63 - 1 := by decide
  rw [h, Nat.and_pow_two_sub_one_eq_mod]

theorem int64_mask63 (u : Nat) : int64 (u &&& (1 <<< 63 - 1)) = ((u % 2 ^ 63 : Nat) : Int) := by
  rw [mask63]
  unfold int64
  have h : u % 2 ^ 63 < 2 ^ 63 := Nat.mod_lt _ (by norm_num)
  have h2 : u % 2 ^ 63 % 2 ^ 64 = u % 2 ^ 63 := Nat.mod_eq_of_lt (by omega)
  rw [h2, if_pos h]

theorem store_ofFn (b : Buf8) : store (fun _ => 0) (List.ofFn b) = b := by
  funext i
  have hi : i.val < (List.ofFn b).length := by rw [List.length_ofFn]; exact i.isLt
  unfold store
  rw [List.getD_eq_getElem _ _ hi, List.getElem_ofFn]

/-! ## Unfolding `Uint64` and `Int63` -/

theorem Uint64_of_ok {σ : Type} (E : Entropy σ) (w : σ)
    (he : (E.Read 8 w).1.err = none) :
    Uint64 E w = (.ret (LittleEndian.Uint64 (bufOf (E.Read 8 w).1.written)), (E.Read 8 w).2) := by
  simp only [Uint64, bufOf]
  rw [he]

theorem Uint64_of_err {σ : Type} (E : Entropy σ) (w : σ) (e : GoError)
    (he : (E.Read 8 w).1.err = some e) :
    Uint64 E w = (.panic (Errorf panicPrefix e), (E.Read 8 w).2) := by
  simp only [Uint64]
  rw [he]

theorem Int63_of_ret {σ : Type} (E : Entropy σ) (w w' : σ) (u : Nat)
    (h : Uint64 E w = (.ret u, w')) :
    Int63 E w = (.ret (int64 (u &&& (1 <<< 63 - 1))), w') := by
  simp only [Int63, h]

theorem Int63_of_panic {σ : Type} (E : Entropy σ) (w w' : σ) (e : GoError)
    (h : Uint64 E w = (.panic e, w')) :
    Int63 E w = (.panic e, w') := by
  simp only [Int63, h]

/-! ## The value of a draw -/

/-- C1: when the read fills the buffer with `b0 .. b7` and reports no error,
`Uint64` returns `b0 + b1 * 2^8 + b2 * 2^16 + ... + b7 * 2^56`; for the buffer
`[0x01, 0, 0, 0, 0, 0, 0, 0]` that is `1`. -/
theorem Uint64_little_endian {σ : Type} (E : Entropy σ) (w : σ) (b : Buf8)
    (hw : (E.Read 8 w).1.written = List.ofFn b) (he : (E.Read 8 w).1.err = none) :
    (Uint64 E w).1 = .ret ((b 0).val + (b 1).val * 2 ^ 8 + (b 2).val * 2 ^ 16 +
        (b 3).val * 2 ^ 24 + (b 4).val * 2 ^ 32 + (b 5).val * 2 ^ 40 +
        (b 6).val * 2 ^ 48 + (b 7).val * 2 ^ 56) ∧
      (b = ![0x01, 0, 0, 0, 0, 0, 0, 0] → (Uint64 E w).1 = .ret 1) := by
  have h : (Uint64 E w).1 = .ret (leValue b) := by
    rw [Uint64_of_ok E w he, hw, bufOf, store_ofFn, decode_eq_leValue]
  refine ⟨h, ?_⟩
  intro hb
  rw [h, hb]
  rfl

/-- C1 at the stream `[0x01, 0, ...]` of the scenario and at
`[0x02, 0x01, 0, ...]`, which decodes to `258`. -/
theorem Uint64_little_endian_witness :
    (Uint64 (mockEntropy ⟨[0x01, 0, 0, 0, 0, 0, 0, 0], none⟩) 0).1 = .ret 1 ∧
      (Uint64 (mockEntropy ⟨[0x02, 0x01, 0, 0, 0, 0, 0, 0], none⟩) 0).1 = .ret 258 :=
  ⟨(Uint64_little_endian (mockEntropy ⟨[0x01, 0, 0, 0, 0, 0, 0, 0], none⟩) 0
      ![0x01, 0, 0, 0, 0, 0, 0, 0] rfl rfl).2 rfl,
    (Uint64_little_endian (mockEntropy ⟨[0x02, 0x01, 0, 0, 0, 0, 0, 0], none⟩) 0
      ![0x02, 0x01, 0, 0, 0, 0, 0, 0] rfl rfl).1⟩

/-- C2: whenever `Uint64` returns `u` from a draw, `Int63` on the same draw
returns `u & (2^63 - 1)`, as an `int64` of the same numeric value (which is
also `u mod 2^63`), and leaves the entropy source in the same state. -/
theorem Int63_eq_Uint64_masked {σ : Type} (E : Entropy σ) (w : σ) (u : Nat)
    (h : (Uint64 E w).1 = .ret u) :
    (Int63 E w).1 = .ret (((u &&& (2 ^ 63 - 1) : Nat) : Int)) ∧
      (Int63 E w).1 = .ret (((u % 2 ^ 63 : Nat) : Int)) ∧
      (Int63 E w).2 = (Uint64 E w).2 := by
  have h' : Uint64 E w = (.ret u, (Uint64 E w).2) := by
    rw [← h]
  rw [Int63_of_ret E w _ u h', int64_mask63, Nat.and_pow_two_sub_one_eq_mod]
  exact ⟨rfl, rfl, rfl⟩

/-- C2 at the draw `[0x01, 0, 0, 0, 0, 0, 0, 0x80]`: `Uint64` gives
`2^63 + 1`, `Int63` gives `1`. -/
theorem Int63_eq_Uint64_masked_witness :
    (Uint64 (mockEntropy ⟨[0x01, 0, 0, 0, 0, 0, 0, 0x80], none⟩) 0).1 = .ret (2 ^ 63 + 1) ∧
      (Int63 (mockEntropy ⟨[0x01, 0, 0, 0, 0, 0, 0, 0x80], none⟩) 0).1 =
        .ret ((((2 ^ 63 + 1) &&& (2 ^ 63 - 1) : Nat) : Int)) :=
  ⟨by decide,
    (Int63_eq_Uint64_masked (mockEntropy ⟨[0x01, 0, 0, 0, 0, 0, 0, 0x80], none⟩) 0
      (2 ^ 63 + 1) (by decide)).1⟩


/-- C3: every value `Int63` returns lies in `[0, 2^63 - 1]`; on the draw of
eight `0xFF` bytes `Uint64` returns `2^64 - 1` and `Int63` returns
`2^63 - 1`. -/
theorem Int63_range {σ : Type} (E : Entropy σ) (w : σ) :
    (∀ v : Int, (Int63 E w).1 = .ret v → 0 ≤ v ∧ v ≤ 2 ^ 63 - 1) ∧
      ((E.Read 8 w).1 = ⟨[0xFF, 0xFF, 0xFF, 0xFF, 0xFF, 0xFF, 0xFF, 0xFF], none⟩ →
        (Uint64 E w).1 = .ret (2 ^ 64 - 1) ∧ (Int63 E w).1 = .ret (2 ^ 63 - 1)) := by
  constructor
  · intro v hv
    cases hu : Uint64 E w with
    | mk o w' =>
      cases o with
      | panic e =>
        rw [Int63_of_panic E w w' e hu] at hv
        cases hv
      | ret u =>
        rw [Int63_of_ret E w w' u hu, int64_mask63] at hv
        have hv' : ((u % 2 ^ 63 : Nat) : Int) = v := by
          injection hv
        have hlt : u % 2 ^ 63 < 2 ^ 63 := Nat.mod_lt _ (by norm_num)
        omega
  · intro hr
    have he : (E.Read 8 w).1.err = none := by rw [hr]
    have hu : Uint64 E w = (.ret (2 ^ 64 - 1), (E.Read 8 w).2) := by
      rw [Uint64_of_ok E w he, hr]
      rfl
    refine ⟨by rw [hu], ?_⟩
    rw [Int63_of_ret E w _ _ hu]
    rfl

/-- C3 at the draw of eight `0xFF` bytes. -/
theorem Int63_range_witness :
    (0 : Int) ≤ 2 ^ 63 - 1 ∧ (2 ^ 63 - 1 : Int) ≤ 2 ^ 63 - 1 ∧
      (Uint64 (mockEntropy ⟨[0xFF, 0xFF, 0xFF, 0xFF, 0xFF, 0xFF, 0xFF, 0xFF], none⟩) 0).1 =
        .ret (2 ^ 64 - 1) ∧
      (Int63 (mockEntropy ⟨[0xFF, 0xFF, 0xFF, 0xFF, 0xFF, 0xFF, 0xFF, 0xFF], none⟩) 0).1 =
        .ret (2 ^ 63 - 1) :=
  have h := Int63_range (mockEntropy ⟨[0xFF, 0xFF, 0xFF, 0xFF, 0xFF, 0xFF, 0xFF, 0xFF], none⟩) 0
  ⟨(h.1 (2 ^ 63 - 1) (h.2 rfl).2).1, (h.1 (2 ^ 63 - 1) (h.2 rfl).2).2, (h.2 rfl).1, (h.2 rfl).2⟩

/-! ## Failure of the entropy read -/

/-- C4: `Uint64` and `Int63` panic exactly when the read returns an error.
The panic value is then `fmt.Errorf` of the prefix
"secure: failed to draw entropy from rand.Reader: " and the error of the read,
which it wraps; no value is returned; and in every case the entropy source is
left in the state one read of 8 bytes leaves it in, so that nothing else was
read. -/
theorem panic_iff_read_error {σ : Type} (E : Entropy σ) (w : σ) :
    ((∃ e, (Uint64 E w).1 = .panic e) ↔ (E.Read 8 w).1.err ≠ none) ∧
      ((∃ e, (Int63 E w).1 = .panic e) ↔ (E.Read 8 w).1.err ≠ none) ∧
      (∀ err, (E.Read 8 w).1.err = some err →
        (Uint64 E w).1 = .panic (Errorf panicPrefix err) ∧
        (Int63 E w).1 = .panic (Errorf panicPrefix err) ∧
        (Errorf panicPrefix err).Unwrap = some err ∧
        (Errorf panicPrefix err).Error =
          "secure: failed to draw entropy from rand.Reader: " ++ err.Error ∧
        (∀ v, (Uint64 E w).1 ≠ .ret v) ∧ (∀ v, (Int63 E w).1 ≠ .ret v)) ∧
      (Uint64 E w).2 = (E.Read 8 w).2 ∧ (Int63 E w).2 = (E.Read 8 w).2 := by
  cases he : (E.Read 8 w).1.err with
  | none =>
    have hu := Uint64_of_ok E w he
    have hi := Int63_of_ret E w _ _ hu
    rw [hu, hi]
    simp
  | some err =>
    have hu := Uint64_of_err E w err he
    have hi := Int63_of_panic E w _ _ hu
    rw [hu, hi]
    simp [Errorf, GoError.Unwrap, GoError.Error, panicPrefix]

/-- C4 at a read that fails with "unexpected EOF" after three bytes. -/
theorem panic_iff_read_error_witness :
    (Uint64 (mockEntropy ⟨[1, 2, 3], some (.errorString "unexpected EOF")⟩) 0).1 =
        .panic (.wrapError "secure: failed to draw entropy from rand.Reader: unexpected EOF"
          (.errorString "unexpected EOF")) ∧
      (Int63 (mockEntropy ⟨[1, 2, 3], some (.errorString "unexpected EOF")⟩) 0).1 =
        .panic (.wrapError "secure: failed to draw entropy from rand.Reader: unexpected EOF"
          (.errorString "unexpected EOF")) ∧
      (Uint64 (mockEntropy ⟨[1, 2, 3], some (.errorString "unexpected EOF")⟩) 0).2 = 1 :=
  have h := panic_iff_read_error
    (mockEntropy ⟨[1, 2, 3], some (.errorString "unexpected EOF")⟩) 0
  ⟨(h.2.2.1 (.errorString "unexpected EOF") rfl).1,
    (h.2.2.1 (.errorString "unexpected EOF") rfl).2.1, h.2.2.2.1⟩

theorem bufOf_short (l : List Byte) (i : Fin 8) (hi : l.length ≤ i.val) :
    bufOf l i = 0 := by
  unfold bufOf store
  exact List.getD_eq_default l 0 hi

/-- C6, as stated, fails: a read that returns three bytes and a nil error is
not turned into a panic; `Uint64` returns `0x030201`, decoded from the buffer
`[1, 2, 3, 0, 0, 0, 0, 0]`. -/
theorem Uint64_short_read_counterexample :
    ((mockEntropy ⟨[1, 2, 3], none⟩).Read 8 0).1.n < 8 ∧
      (Uint64 (mockEntropy ⟨[1, 2, 3], none⟩) 0).1 = .ret 0x030201 ∧
      ¬ ∃ e, (Uint64 (mockEntropy ⟨[1, 2, 3], none⟩) 0).1 = .panic e := by
  have hv : (Uint64 (mockEntropy ⟨[1, 2, 3], none⟩) 0).1 = .ret 0x030201 := by decide
  refine ⟨by decide, hv, ?_⟩
  rintro ⟨e, he⟩
  rw [hv] at he
  cases he

/-- C6, amended: for every read that returns fewer than 8 bytes, `Uint64`
panics exactly when the read reports an error, then with that error wrapped
and without a value; the byte count is not looked at (`_, err := ...`), so a
short read that reports no error is decoded from the buffer that holds the
bytes written followed by zeros, which gives a value below `2^56`. -/
theorem Uint64_short_read {σ : Type} (E : Entropy σ) (w : σ)
    (hn : (E.Read 8 w).1.n < 8) :
    ((∃ e, (Uint64 E w).1 = .panic e) ↔ (E.Read 8 w).1.err ≠ none) ∧
      (∀ err, (E.Read 8 w).1.err = some err →
        (Uint64 E w).1 = .panic (Errorf panicPrefix err) ∧
        ∀ v, (Uint64 E w).1 ≠ .ret v) ∧
      ((E.Read 8 w).1.err = none →
        (Uint64 E w).1 = .ret (LittleEndian.Uint64 (bufOf (E.Read 8 w).1.written)) ∧
        (∀ i : Fin 8, (E.Read 8 w).1.n ≤ i.val → bufOf (E.Read 8 w).1.written i = 0) ∧
        LittleEndian.Uint64 (bufOf (E.Read 8 w).1.written) < 2 ^ 56) := by
  cases he : (E.Read 8 w).1.err with
  | none =>
    rw [Uint64_of_ok E w he]
    refine ⟨by simp, fun err h => (by cases h), fun _ => ⟨rfl, ?_, ?_⟩⟩
    · intro i hi
      exact bufOf_short _ i hi
    · have h7 : bufOf (E.Read 8 w).1.written 7 = 0 :=
        bufOf_short _ 7 (Nat.le_of_lt_succ hn)
      have h0 := (bufOf (E.Read 8 w).1.written 0).isLt
      have h1 := (bufOf (E.Read 8 w).1.written 1).isLt
      have h2 := (bufOf (E.Read 8 w).1.written 2).isLt
      have h3 := (bufOf (E.Read 8 w).1.written 3).isLt
      have h4 := (bufOf (E.Read 8 w).1.written 4).isLt
      have h5 := (bufOf (E.Read 8 w).1.written 5).isLt
      have h6 := (bufOf (E.Read 8 w).1.written 6).isLt
      rw [decode_eq_leValue]
      unfold leValue
      rw [h7]
      simp only [Fin.val_zero, Nat.zero_mul, Nat.add_zero]
      omega
  | some err =>
    rw [Uint64_of_err E w err he]
    refine ⟨by simp, fun err' h => ?_, fun h => (by cases h)⟩
    have hee : err = err' := by
      injection h
    subst hee
    exact ⟨rfl, fun v hv => by cases hv⟩

/-- C6, amended, at a read that delivers three bytes and "unexpected EOF". -/
theorem Uint64_short_read_witness :
    ((mockEntropy ⟨[1, 2, 3], some (.errorString "unexpected EOF")⟩).Read 8 0).1.n < 8 ∧
      (Uint64 (mockEntropy ⟨[1, 2, 3], some (.errorString "unexpected EOF")⟩) 0).1 =
        .panic (Errorf panicPrefix (.errorString "unexpected EOF")) ∧
      ∀ v, (Uint64 (mockEntropy ⟨[1, 2, 3], some (.errorString "unexpected EOF")⟩) 0).1 ≠
        .ret v :=
  ⟨by decide,
    ((Uint64_short_read (mockEntropy ⟨[1, 2, 3], some (.errorString "unexpected EOF")⟩) 0
      (by decide)).2.1 (.errorString "unexpected EOF") rfl).1,
    ((Uint64_short_read (mockEntropy ⟨[1, 2, 3], some (.errorString "unexpected EOF")⟩) 0
      (by decide)).2.1 (.errorString "unexpected EOF") rfl).2⟩

/-! ## Sequences of calls -/

theorem call_seed {σ : Type} (E : Entropy σ) (x : Int) (w : σ) :
    call E (.seed x) w = (.ret .unit, w) := rfl

theorem run_seed_cons {σ : Type} (E : Entropy σ) (x : Int) (cs : List Call) (w : σ) :
    run E (.seed x :: cs) w = (.ret .unit :: (run E cs w).1, (run E cs w).2) := rfl

theorem call_draw_outcome {σ : Type} (E : Entropy σ) (c : Call) (w : σ)
    (hc : c.isDraw = true) : isDrawOutcome (call E c w).1 = true := by
  cases c with
  | seed x => cases hc
  | uint64 =>
    simp only [call]
    cases h : Uint64 E w with
    | mk o w' => cases o <;> rfl
  | int63 =>
    simp only [call]
    cases h : Int63 E w with
    | mk o w' => cases o <;> rfl

theorem run_filter {σ : Type} (E : Entropy σ) (cs : List Call) :
    ∀ w : σ, (run E cs w).1.filter isDrawOutcome = (run E (cs.filter Call.isDraw) w).1 ∧
      (run E cs w).2 = (run E (cs.filter Call.isDraw) w).2 := by
  induction cs with
  | nil => intro w; exact ⟨rfl, rfl⟩
  | cons c cs ih =>
    intro w
    by_cases hc : c.isDraw = true
    · have hd := call_draw_outcome E c w hc
      rw [List.filter_cons_of_pos hc]
      simp only [run]
      cases h : call E c w with
      | mk o w' =>
        rw [h] at hd
        cases o with
        | panic e => simp [hd]
        | ret v =>
          simp only [List.filter_cons, hd, if_true]
          exact ⟨by rw [(ih w').1], (ih w').2⟩
    · have hx : ∃ x, c = .seed x := by
        cases c with
        | seed x => exact ⟨x, rfl⟩
        | uint64 => exact absurd rfl hc
        | int63 => exact absurd rfl hc
      obtain ⟨x, rfl⟩ := hx
      rw [List.filter_cons_of_neg hc, run_seed_cons]
      have : isDrawOutcome (.ret .unit) = false := rfl
      simp only [List.filter_cons, this]
      exact ih w

/-- C5: for every seed `x`, `Seed` returns without a panic and leaves the
entropy source as it found it; a `Seed` call in front of any sequence of calls
changes neither their outcomes nor the final state of the source; and more
generally the outcomes of the draws of a sequence of calls, and the final
state, are those of the sequence with every `Seed` call removed. -/
theorem Seed_no_effect {σ : Type} (E : Entropy σ) (x : Int) (w : σ) :
    Seed x w = (.ret (), w) ∧
      (∀ cs : List Call,
        run E (.seed x :: cs) w = (.ret .unit :: (run E cs w).1, (run E cs w).2)) ∧
      (∀ cs : List Call,
        (run E cs w).1.filter isDrawOutcome = (run E (cs.filter Call.isDraw) w).1 ∧
          (run E cs w).2 = (run E (cs.filter Call.isDraw) w).2) :=
  ⟨rfl, fun cs => run_seed_cons E x cs w, fun cs => run_filter E cs w⟩


/-! ## Draws from a byte stream -/

theorem Uint64_stream (s : Nat → Byte) (p r : Nat) :
    Uint64 (streamEntropy s) ⟨p, r⟩ =
      (.ret (LittleEndian.Uint64 (fun t => s (p + t.val))), ⟨p + 8, r + 1⟩) := by
  rw [Uint64_of_ok (streamEntropy s) ⟨p, r⟩ rfl]
  show (Outcome.ret (LittleEndian.Uint64
    (bufOf (List.ofFn (fun t : Fin 8 => s (p + t.val))))), _) = _
  rw [bufOf, store_ofFn]
  rfl

theorem call_stream (s : Nat → Byte) (c : Call) (p r : Nat) :
    call (streamEntropy s) c ⟨p, r⟩ =
      (resultOn c (fun t => s (p + t.val)),
        ⟨p + 8 * drawCount [c], r + drawCount [c]⟩) := by
  cases c with
  | seed x => rfl
  | uint64 =>
    simp only [call, Uint64_stream]
    rfl
  | int63 =>
    simp only [call, Int63_of_ret _ _ _ _ (Uint64_stream s p r)]
    rfl

theorem resultOn_ret (c : Call) (b : Buf8) : ∃ v, resultOn c b = .ret v := by
  cases c with
  | seed x => exact ⟨_, rfl⟩
  | uint64 => exact ⟨_, rfl⟩
  | int63 => exact ⟨_, rfl⟩

theorem drawCount_cons (c : Call) (cs : List Call) :
    drawCount (c :: cs) = drawCount [c] + drawCount cs := by
  unfold drawCount
  by_cases hc : c.isDraw = true
  · simp [List.filter_cons, hc]; omega
  · simp [List.filter_cons, hc]

theorem run_stream_cons (s : Nat → Byte) (c : Call) (cs : List Call) (p r : Nat) :
    run (streamEntropy s) (c :: cs) ⟨p, r⟩ =
      (resultOn c (fun t => s (p + t.val)) ::
          (run (streamEntropy s) cs ⟨p + 8 * drawCount [c], r + drawCount [c]⟩).1,
        (run (streamEntropy s) cs ⟨p + 8 * drawCount [c], r + drawCount [c]⟩).2) := by
  obtain ⟨v, hv⟩ := resultOn_ret c (fun t => s (p + t.val))
  simp only [run, call_stream, hv]

theorem run_stream_state (s : Nat → Byte) (cs : List Call) :
    ∀ p r, (run (streamEntropy s) cs ⟨p, r⟩).2 =
      ⟨p + 8 * drawCount cs, r + drawCount cs⟩ := by
  induction cs with
  | nil => intro p r; rfl
  | cons c cs ih =>
    intro p r
    rw [run_stream_cons, ih, drawCount_cons c cs]
    simp only [StreamState.mk.injEq]
    omega

theorem run_stream_get (s : Nat → Byte) (cs : List Call) :
    ∀ (p r i : Nat) (c : Call), cs[i]? = some c →
      (run (streamEntropy s) cs ⟨p, r⟩).1[i]? =
        some (resultOn c (fun t => s (p + 8 * drawCount (cs.take i) + t.val))) := by
  induction cs with
  | nil => intro p r i c h; simp at h
  | cons d cs ih =>
    intro p r i c h
    rw [run_stream_cons]
    cases i with
    | zero =>
      simp only [List.getElem?_cons_zero, Option.some.injEq] at h
      subst h
      simp [drawCount]
    | succ i =>
      simp only [List.getElem?_cons_succ] at h
      simp only [List.getElem?_cons_succ, List.take_succ_cons]
      rw [ih _ _ i c h, drawCount_cons d (List.take i cs)]
      have : ∀ t : Fin 8, p + 8 * drawCount [d] + 8 * drawCount (List.take i cs) + t.val =
          p + 8 * (drawCount [d] + drawCount (List.take i cs)) + t.val := by
        intro t; omega
      simp only [this]

/-- C9: over an endless byte stream `s`, every `Uint64` and every `Int63`
call advances the stream by exactly 8 bytes in exactly one read, and `Seed` by
none.  In any sequence of calls started at the head of the stream, the call
at position `i`, preceded by `k` draws, returns the decoding of stream bytes
`8 k .. 8 k + 7`; the windows of different draws share no byte; after the
sequence the stream stands at 8 times the number of draws, reached in as many
reads; and a draw returns the same value in any other sequence over any other
stream in which the same kind of call meets the same 8 bytes. -/
theorem draws_use_own_bytes (s : Nat → Byte) (cs : List Call) :
    (∀ p r, (Uint64 (streamEntropy s) ⟨p, r⟩).2 = ⟨p + 8, r + 1⟩ ∧
        (Int63 (streamEntropy s) ⟨p, r⟩).2 = ⟨p + 8, r + 1⟩) ∧
      (∀ (i : Nat) (c : Call), cs[i]? = some c →
        (run (streamEntropy s) cs ⟨0, 0⟩).1[i]? =
          some (resultOn c (window s (drawCount (cs.take i))))) ∧
      (∀ (k k' : Nat) (t t' : Fin 8), k ≠ k' → 8 * k + t.val ≠ 8 * k' + t'.val) ∧
      (run (streamEntropy s) cs ⟨0, 0⟩).2 = ⟨8 * drawCount cs, drawCount cs⟩ ∧
      (∀ (s' : Nat → Byte) (cs' : List Call) (i j : Nat) (c : Call),
        cs[i]? = some c → cs'[j]? = some c →
        window s (drawCount (cs.take i)) = window s' (drawCount (cs'.take j)) →
        (run (streamEntropy s) cs ⟨0, 0⟩).1[i]? =
          (run (streamEntropy s') cs' ⟨0, 0⟩).1[j]?) := by
  have hget : ∀ (s : Nat → Byte) (cs : List Call) (i : Nat) (c : Call), cs[i]? = some c →
      (run (streamEntropy s) cs ⟨0, 0⟩).1[i]? =
        some (resultOn c (window s (drawCount (cs.take i)))) := by
    intro s cs i c h
    have hw : (fun t : Fin 8 => s (0 + 8 * drawCount (cs.take i) + t.val)) =
        window s (drawCount (cs.take i)) := by
      funext t
      simp only [window, Nat.zero_add]
    rw [run_stream_get s cs 0 0 i c h, hw]
  refine ⟨?_, hget s cs, ?_, ?_, ?_⟩
  · intro p r
    rw [Int63_of_ret _ _ _ _ (Uint64_stream s p r), Uint64_stream]
    exact ⟨rfl, rfl⟩
  · intro k k' t t' hk
    have := t.isLt
    have := t'.isLt
    omega
  · rw [run_stream_state]
    simp
  · intro s' cs' i j c hi hj hwin
    rw [hget s cs i c hi, hget s' cs' j c hj, hwin]


/-- C9 on the stream `0, 1, 2, ...` and the calls `Uint64`, `Seed(-5)`,
`Int63`: the third call is the second draw and decodes bytes `8 .. 15`. -/
theorem draws_use_own_bytes_witness :
    [Call.uint64, Call.seed (-5), Call.int63][2]? = some Call.int63 ∧
      (run (streamEntropy countStream) [.uint64, .seed (-5), .int63] ⟨0, 0⟩).1[2]? =
        some (resultOn .int63 (window countStream 1)) ∧
      resultOn .int63 (window countStream 1) = .ret (.i64 0x0F0E0D0C0B0A0908) ∧
      (run (streamEntropy countStream) [.uint64, .seed (-5), .int63] ⟨0, 0⟩).2 = ⟨16, 2⟩ :=
  ⟨rfl,
    (draws_use_own_bytes countStream [.uint64, .seed (-5), .int63]).2.1 2 .int63 rfl,
    by decide,
    (draws_use_own_bytes countStream [.uint64, .seed (-5), .int63]).2.2.2.1⟩


/-! ## The decoding as a bijection -/

theorem leValue_leBytes (v : Nat) (h : v < 2 ^ 64) : leValue (leBytes v) = v := by
  show v / 2 ^ 0 % 256 + v / 2 ^ 8 % 256 * 2 ^ 8 + v / 2 ^ 16 % 256 * 2 ^ 16 +
    v / 2 ^ 24 % 256 * 2 ^ 24 + v / 2 ^ 32 % 256 * 2 ^ 32 + v / 2 ^ 40 % 256 * 2 ^ 40 +
    v / 2 ^ 48 % 256 * 2 ^ 48 + v / 2 ^ 56 % 256 * 2 ^ 56 = v
  omega

theorem leBytes_leValue (b : Buf8) : leBytes (leValue b) = b := by
  have h0 := (b 0).isLt; have h1 := (b 1).isLt; have h2 := (b 2).isLt
  have h3 := (b 3).isLt; have h4 := (b 4).isLt; have h5 := (b 5).isLt
  have h6 := (b 6).isLt; have h7 := (b 7).isLt
  have e0 : leBytes (leValue b) 0 = b 0 :=
    Fin.ext (by show leValue b / 2 ^ 0 % 256 = (b 0).val; unfold leValue; omega)
  have e1 : leBytes (leValue b) 1 = b 1 :=
    Fin.ext (by show leValue b / 2 ^ 8 % 256 = (b 1).val; unfold leValue; omega)
  have e2 : leBytes (leValue b) 2 = b 2 :=
    Fin.ext (by show leValue b / 2 ^ 16 % 256 = (b 2).val; unfold leValue; omega)
  have e3 : leBytes (leValue b) 3 = b 3 :=
    Fin.ext (by show leValue b / 2 ^ 24 % 256 = (b 3).val; unfold leValue; omega)
  have e4 : leBytes (leValue b) 4 = b 4 :=
    Fin.ext (by show leValue b / 2 ^ 32 % 256 = (b 4).val; unfold leValue; omega)
  have e5 : leBytes (leValue b) 5 = b 5 :=
    Fin.ext (by show leValue b / 2 ^ 40 % 256 = (b 5).val; unfold leValue; omega)
  have e6 : leBytes (leValue b) 6 = b 6 :=
    Fin.ext (by show leValue b / 2 ^ 48 % 256 = (b 6).val; unfold leValue; omega)
  have e7 : leBytes (leValue b) 7 = b 7 :=
    Fin.ext (by show leValue b / 2 ^ 56 % 256 = (b 7).val; unfold leValue; omega)
  funext i
  fin_cases i
  exacts [e0, e1, e2, e3, e4, e5, e6, e7]

theorem decode_injective : Function.Injective LittleEndian.Uint64 := by
  intro b b' h
  rw [decode_eq_leValue, decode_eq_leValue] at h
  rw [← leBytes_leValue b, ← leBytes_leValue b', h]

/-- C7: the decoding `Uint64` applies to its buffer is a bijection from the
8-byte buffers, of which there are `2^64`, onto the numbers below `2^64`:
different buffers decode to different values, every decoded value is below
`2^64`, and every `v < 2^64` is the decoding of exactly one buffer. -/
theorem Uint64_decoding_bijective :
    Function.Injective LittleEndian.Uint64 ∧
      (∀ b : Buf8, LittleEndian.Uint64 b < 2 ^ 64) ∧
      (∀ v : Nat, v < 2 ^ 64 → ∃! b : Buf8, LittleEndian.Uint64 b = v) ∧
      Fintype.card Buf8 = 2 ^ 64 := by
  refine ⟨decode_injective, decode_lt, ?_, ?_⟩
  · intro v hv
    refine ⟨leBytes v, ?_, ?_⟩
    · show LittleEndian.Uint64 (leBytes v) = v
      rw [decode_eq_leValue, leValue_leBytes v hv]
    · intro b hb
      apply decode_injective
      rw [hb, decode_eq_leValue, leValue_leBytes v hv]
  · simp only [Fintype.card_pi, Fintype.card_fin, Finset.prod_const, Finset.card_univ]
    norm_num

/-- C7 at `258`: exactly one buffer decodes to it. -/
theorem Uint64_decoding_bijective_witness :
    (258 : Nat) < 2 ^ 64 ∧ ∃! b : Buf8, LittleEndian.Uint64 b = 258 :=
  ⟨by norm_num, Uint64_decoding_bijective.2.2.1 258 (by norm_num)⟩


/-! ## The 63-bit value -/

theorem Uint64_ret_lt {σ : Type} (E : Entropy σ) (w : σ) (u : Nat)
    (h : (Uint64 E w).1 = .ret u) : u < 2 ^ 64 := by
  cases he : (E.Read 8 w).1.err with
  | none =>
    rw [Uint64_of_ok E w he] at h
    have hu : LittleEndian.Uint64 (bufOf (E.Read 8 w).1.written) = u := by
      injection h
    rw [← hu]
    exact decode_lt _
  | some err =>
    rw [Uint64_of_err E w err he] at h
    cases h

theorem mask63_eq_iff (u : Nat) (hu : u < 2 ^ 64) (v : Int) (h0 : 0 ≤ v) (h1 : v ≤ 2 ^ 63 - 1) :
    int64 (u &&& (1 <<< 63 - 1)) = v ↔ (u = v.toNat ∨ u = v.toNat + 2 ^ 63) := by
  rw [int64_mask63]
  omega

/-- C8: for every `v` in `[0, 2^63 - 1]`, the derivation of `Int63`,
`int64(u & (1<<63 - 1))`, sends exactly two of the `2^64` values `u` of a draw
to `v`, namely `v` and `v + 2^63`; and `Int63` returns `v` exactly when
`Uint64` on the same draw returns one of these two. -/
theorem Int63_two_preimages (v : Int) (h0 : 0 ≤ v) (h1 : v ≤ 2 ^ 63 - 1) :
    (∀ u : Nat, u < 2 ^ 64 →
        (int64 (u &&& (1 <<< 63 - 1)) = v ↔ (u = v.toNat ∨ u = v.toNat + 2 ^ 63))) ∧
      v.toNat < 2 ^ 64 ∧ v.toNat + 2 ^ 63 < 2 ^ 64 ∧ v.toNat ≠ v.toNat + 2 ^ 63 ∧
      ((Finset.range (2 ^ 64)).filter
        (fun u => int64 (u &&& (1 <<< 63 - 1)) = v)).card = 2 ∧
      (∀ {σ : Type} (E : Entropy σ) (w : σ) (u : Nat), (Uint64 E w).1 = .ret u →
        ((Int63 E w).1 = .ret v ↔ (u = v.toNat ∨ u = v.toNat + 2 ^ 63))) := by
  have hne : v.toNat ≠ v.toNat + 2 ^ 63 := by omega
  refine ⟨fun u hu => mask63_eq_iff u hu v h0 h1, by omega, by omega, hne, ?_, ?_⟩
  · have hset : (Finset.range (2 ^ 64)).filter
        (fun u => int64 (u &&& (1 <<< 63 - 1)) = v) = {v.toNat, v.toNat + 2 ^ 63} := by
      ext u
      rw [Finset.mem_filter, Finset.mem_range, Finset.mem_insert, Finset.mem_singleton]
      constructor
      · rintro ⟨hu, h⟩
        exact (mask63_eq_iff u hu v h0 h1).1 h
      · intro h
        have hu : u < 2 ^ 64 := by omega
        exact ⟨hu, (mask63_eq_iff u hu v h0 h1).2 h⟩
    rw [hset, Finset.card_pair hne]
  · intro σ E w u hu
    have hlt := Uint64_ret_lt E w u hu
    have h' : Uint64 E w = (.ret u, (Uint64 E w).2) := by
      rw [← hu]
    rw [Int63_of_ret E w _ u h', ← mask63_eq_iff u hlt v h0 h1]
    constructor
    · intro h
      injection h
    · intro h
      rw [h]

/-- C8 at `v = 1`: the values `1` and `2^63 + 1` and no others are sent to
`1`. -/
theorem Int63_two_preimages_witness :
    (0 : Int) ≤ 1 ∧ (1 : Int) ≤ 2 ^ 63 - 1 ∧
      ((Finset.range (2 ^ 64)).filter
        (fun u => int64 (u &&& (1 <<< 63 - 1)) = 1)).card = 2 ∧
      (int64 ((2 ^ 63 + 1) &&& (1 <<< 63 - 1)) = 1 ↔
        ((2 ^ 63 + 1 : Nat) = (1 : Int).toNat ∨ (2 ^ 63 + 1 : Nat) = (1 : Int).toNat + 2 ^ 63)) :=
  ⟨by norm_num, by norm_num,
    (Int63_two_preimages 1 (by norm_num) (by norm_num)).2.2.2.2.1,
    (Int63_two_preimages 1 (by norm_num) (by norm_num)).1 (2 ^ 63 + 1) (by norm_num)⟩

end Strong
